import Mathlib

/-!
Shallow embedding of `src/interpolate_camera_poses.py` and proofs about it.

The script loads named camera poses from a JSON file, inverts each
camera-to-world matrix to obtain a world-to-camera transform, interpolates
between consecutive poses with `pycolmap.Rigid3d.interpolate`, and writes the
densified sequence back to JSON.

Modelling choices: the Python floats `dt` and `fps` are modelled as
rationals (their product only feeds the builtin `int`), all real-valued
geometry is modelled over `ℝ`, Python operations that can raise are modelled
with `Option`, and a `pycolmap.Rigid3d` value is modelled as its stored
rotation quaternion together with its translation vector.  The third-party
`pycolmap` primitives themselves are not part of the repository and are
modelled from the spec where indicated.
-/

open scoped Matrix

/-- Truncation toward zero: the behaviour of the Python builtin `int` on a
finite float or rational value. -/
def pyInt (q : ℚ) : ℤ := if 0 ≤ q then ⌊q⌋ else ⌈q⌉

/-- The per-segment frame count computed at line 109 of the source:
`num_frames = int(dt * fps)`. -/
def numFrames (dt fps : ℚ) : ℤ := pyInt (dt * fps)

/-- A quaternion with real coefficients, the internal rotation representation
of `pycolmap.Rigid3d` (`w` scalar part, `x y z` vector part). -/
structure Quat where
  w : ℝ
  x : ℝ
  y : ℝ
  z : ℝ

/-- Componentwise dot product of two quaternions. -/
def dotQ (p q : Quat) : ℝ := p.w * q.w + p.x * q.x + p.y * q.y + p.z * q.z

/-- Squared Euclidean norm of a quaternion. -/
def normSqQ (q : Quat) : ℝ := dotQ q q

/-- Scalar multiple of a quaternion. -/
def Quat.smul (c : ℝ) (q : Quat) : Quat := ⟨c * q.w, c * q.x, c * q.y, c * q.z⟩

/-- Componentwise sum of two quaternions. -/
def Quat.add (p q : Quat) : Quat := ⟨p.w + q.w, p.x + q.x, p.y + q.y, p.z + q.z⟩

/-- Modelled from the spec: the rotation part of `pycolmap.Rigid3d.interpolate`
is a third-party primitive that is not part of the repository; the spec
prescribes shortest-arc spherical linear interpolation on unit quaternions.
This is the standard slerp: for dot product `d` with `|d| < 1` the result is
`sin((1-t)·θ)/sin θ · q1 + s·sin(t·θ)/sin θ · q2` with `θ = arccos |d|` and
the sign `s` flipped when `d < 0` so that the shorter arc is taken; when
`|d| ≥ 1` it degenerates to linear blending with the same sign convention. -/
noncomputable def slerpQ (q1 q2 : Quat) (t : ℝ) : Quat :=
  let d := dotQ q1 q2
  let scales : ℝ × ℝ :=
    if 1 ≤ |d| then (1 - t, t)
    else
      let θ := Real.arccos |d|
      (Real.sin ((1 - t) * θ) / Real.sin θ, Real.sin (t * θ) / Real.sin θ)
  let s1 := if d < 0 then -scales.2 else scales.2
  Quat.add (Quat.smul scales.1 q1) (Quat.smul s1 q2)

/-- A rigid 3D transform as stored by `pycolmap.Rigid3d`: a rotation
quaternion together with a translation vector. -/
structure Rigid3d where
  rotation : Quat
  translation : Fin 3 → ℝ

/-- Modelled from the spec: `pycolmap.Rigid3d.interpolate` is a third-party
primitive that is not part of the repository.  Per the spec, rotation is
interpolated by shortest-arc spherical linear interpolation and translation
by ordinary linear interpolation, both at the same fractional parameter. -/
noncomputable def Rigid3d.interpolate (a b : Rigid3d) (t : ℝ) : Rigid3d :=
  { rotation := slerpQ a.rotation b.rotation t
    translation := fun k => (1 - t) * a.translation k + t * b.translation k }

/-- The poses contributed by one iteration of the outer loop of
`interpolate_poses` (source lines 108-122): the interpolated poses for
`j = 1, …, num_frames - 1` (Python `range(1, num_frames)`, empty when
`num_frames ≤ 1`) followed by the trailing keyframe `next_pose`. -/
noncomputable def segmentPoses (pre nxt : Rigid3d) (nf : ℤ) : List Rigid3d :=
  ((List.range' 1 (nf - 1).toNat).map
    (fun (j : ℕ) => Rigid3d.interpolate pre nxt ((j : ℝ) / (nf : ℝ)))) ++ [nxt]

/-- Embedding of `interpolate_poses` (source lines 86-124).  The Python
function first reads `poses[0]`, which raises `IndexError` on an empty list
(modelled as `none`); otherwise it emits the first pose and then, for each
consecutive pair `(poses[i], poses[i+1])`, the interpolated poses followed by
the trailing keyframe.  `num_frames = int(dt * fps)` is recomputed in every
iteration but is the same value each time. -/
noncomputable def interpolate_poses (poses : List Rigid3d) (dt fps : ℚ) :
    Option (List Rigid3d) :=
  match poses with
  | [] => none
  | p0 :: _ =>
    some (p0 :: (poses.zip poses.tail).flatMap
      (fun pr => segmentPoses pr.1 pr.2 (numFrames dt fps)))

/-- Python float division, which raises `ZeroDivisionError` when the divisor
is zero; modelled as `none` in that case. -/
noncomputable def fdiv (a b : ℝ) : Option ℝ := if b = 0 then none else some (a / b)

/-- Embedding of `fov_to_focal` (source lines 33-43):
`pixels / (2 * math.tan(fov / 2))`. -/
noncomputable def fov_to_focal (fov : ℝ) (pixels : ℕ) : Option ℝ :=
  fdiv (pixels : ℝ) (2 * Real.tan (fov / 2))

/-- Embedding of `focal_to_fov` (source lines 46-56):
`2 * math.atan(pixels / (2 * focal))`; the division is evaluated first and
is the only failing operation. -/
noncomputable def focal_to_fov (focal : ℝ) (pixels : ℕ) : Option ℝ :=
  (fdiv (pixels : ℝ) (2 * focal)).map (fun r => 2 * Real.arctan r)

/-- One record of the input JSON, restricted to the fields that
`load_camera_poses` reads. -/
structure CameraItem where
  img_name : String
  position : Fin 3 → ℝ
  rotation : Matrix (Fin 3) (Fin 3) ℝ

/-- The camera-to-world matrix built at source lines 77-79: `np.eye(4)` with
the upper-left 3x3 block replaced by the record's rotation and the upper
part of the last column by its position. -/
def buildTwc (R : Matrix (Fin 3) (Fin 3) ℝ) (t : Fin 3 → ℝ) :
    Matrix (Fin 4) (Fin 4) ℝ :=
  !![R 0 0, R 0 1, R 0 2, t 0;
     R 1 0, R 1 1, R 1 2, t 1;
     R 2 0, R 2 1, R 2 2, t 2;
     0, 0, 0, 1]

/-- Assignment `d[k] = v` on a Python dict viewed as an ordered association
list: an existing key keeps its position and gets the new value, a new key
is appended at the end. -/
def insertAssoc {α : Type} : List (String × α) → String → α → List (String × α)
  | [], k, v => [(k, v)]
  | (k', v') :: rest, k, v =>
    if k' = k then (k, v) :: rest else (k', v') :: insertAssoc rest k v

/-- Embedding of `load_camera_poses` (source lines 59-83) after JSON parsing:
for each record build the camera-to-world matrix, invert it
(`np.linalg.inv`, modelled by the matrix inverse), store it in the dict
keyed by the record's `img_name`, and finally sort the dict entries by key
in ascending order. -/
noncomputable def load_camera_poses (data : List CameraItem) :
    List (String × Matrix (Fin 4) (Fin 4) ℝ) :=
  (data.foldl
    (fun acc it =>
      insertAssoc acc it.img_name (buildTwc it.rotation it.position)⁻¹)
    []).mergeSort (fun a b => decide (a.1 ≤ b.1))

/-- A valid rotation matrix: orthonormal with determinant one. -/
def validRot (M : Matrix (Fin 3) (Fin 3) ℝ) : Prop :=
  Mᵀ * M = 1 ∧ M.det = 1

/-- The rotation matrix realising a stored quaternion, as used by
`pycolmap` (via Eigen) whenever a `Rigid3d` rotation is materialised as a
3x3 matrix. -/
def quatToMat (q : Quat) : Matrix (Fin 3) (Fin 3) ℝ :=
  !![1 - 2*(q.y^2 + q.z^2), 2*(q.x*q.y - q.w*q.z), 2*(q.x*q.z + q.w*q.y);
     2*(q.x*q.y + q.w*q.z), 1 - 2*(q.x^2 + q.z^2), 2*(q.y*q.z - q.w*q.x);
     2*(q.x*q.z - q.w*q.y), 2*(q.y*q.z + q.w*q.x), 1 - 2*(q.x^2 + q.y^2)]

/-- The identity pose: identity rotation quaternion and zero translation.
Used as a concrete sample input. -/
def idPose : Rigid3d := ⟨⟨1, 0, 0, 0⟩, fun _ => 0⟩

/-- A concrete input record: name `a`, zero position, identity rotation.
Used as a concrete sample input. -/
def idCam : CameraItem := ⟨"a", fun _ => 0, 1⟩

/-! ## Length structure of the interpolated sequence -/

lemma segmentPoses_length (pre nxt : Rigid3d) (nf : ℤ) :
    (segmentPoses pre nxt nf).length = (nf - 1).toNat + 1 := by
  rw [segmentPoses, List.length_append, List.length_map, List.length_range']
  rfl

lemma flatMap_segment_length (l : List (Rigid3d × Rigid3d)) (nf : ℤ) :
    (l.flatMap (fun pr => segmentPoses pr.1 pr.2 nf)).length
      = l.length * ((nf - 1).toNat + 1) := by
  induction l with
  | nil => simp
  | cons a t ih =>
    simp only [List.flatMap_cons, List.length_append, List.length_cons, ih,
      segmentPoses_length]
    ring

lemma interpolate_poses_length (poses : List Rigid3d) (dt fps : ℚ)
    (h : poses ≠ []) :
    (interpolate_poses poses dt fps).map List.length
      = some (1 + (poses.length - 1) * ((numFrames dt fps - 1).toNat + 1)) := by
  obtain ⟨p, rest, rfl⟩ := List.exists_cons_of_ne_nil h
  simp only [interpolate_poses, Option.map_some']
  congr 1
  simp only [List.length_cons, flatMap_segment_length, List.length_zip,
    List.tail_cons, Nat.add_sub_cancel]
  rw [min_eq_right (by omega)]
  exact Nat.add_comm _ _

lemma numFrames_half_30 : numFrames (1/2 : ℚ) 30 = 15 := by
  norm_num [numFrames, pyInt]

/-- C1: with 3 keyframes, `dt = 0.5` and `fps = 30`, the per-segment frame
count is `num_frames = 15`, every segment contributes 14 interpolated poses
plus its trailing keyframe, and together with the leading first keyframe the
output has exactly 31 poses. -/
theorem interpolate_three_keyframes_count (p q r : Rigid3d) :
    numFrames (1/2 : ℚ) 30 = 15 ∧
    (∀ a b : Rigid3d,
      (segmentPoses a b (numFrames (1/2 : ℚ) 30)).length = 14 + 1) ∧
    (interpolate_poses [p, q, r] (1/2 : ℚ) 30).map List.length = some 31 := by
  refine ⟨numFrames_half_30, ?_, ?_⟩
  · intro a b
    rw [segmentPoses_length, numFrames_half_30]
    decide
  · rw [interpolate_poses_length _ _ _ (by simp), numFrames_half_30]
    simp only [List.length_cons, List.length_nil]
    decide

/-- C2 fails as stated: with 2 keyframes, `dt = 0.5` and `fps = 30` the code
returns 16 poses, while the claimed count formula (1 for the first keyframe,
plus `floor(dt * fps)` interpolated frames plus 1 per segment) predicts 17. -/
theorem per_segment_count_counterexample :
    (interpolate_poses [idPose, idPose] (1/2 : ℚ) 30).map List.length
        = some 16 ∧
    1 + ((numFrames (1/2 : ℚ) 30).toNat + 1) = 17 ∧
    (interpolate_poses [idPose, idPose] (1/2 : ℚ) 30).map List.length
        ≠ some (1 + ((numFrames (1/2 : ℚ) 30).toNat + 1)) := by
  have e : (interpolate_poses [idPose, idPose] (1/2 : ℚ) 30).map List.length
      = some 16 := by
    rw [interpolate_poses_length _ _ _ (by simp), numFrames_half_30]
    decide
  refine ⟨e, ?_, ?_⟩
  · rw [numFrames_half_30]
    decide
  · rw [e, numFrames_half_30]
    decide

/-- C2 amended: for every non-empty pose list the output count is 1 (first
keyframe) plus, per consecutive keyframe pair, `max(num_frames - 1, 0)`
interpolated frames plus 1 for the trailing keyframe, where
`num_frames = int(dt * fps)`. -/
theorem interpolate_poses_count (poses : List Rigid3d) (dt fps : ℚ)
    (h : poses ≠ []) :
    (interpolate_poses poses dt fps).map List.length
      = some (1 + (poses.length - 1) * ((numFrames dt fps - 1).toNat + 1)) :=
  interpolate_poses_length poses dt fps h

/-- Witness for the amended C2 at a singleton input. -/
theorem interpolate_poses_count_witness :
    (interpolate_poses [idPose] (1/2 : ℚ) 30).map List.length = some 1 := by
  have h := interpolate_poses_count [idPose] (1/2 : ℚ) 30 (by simp)
  simpa using h

lemma flatMap_snd (l : List Rigid3d) :
    ∀ a : Rigid3d,
      ((a :: l).zip l).flatMap (fun pr : Rigid3d × Rigid3d => [pr.2]) = l := by
  induction l with
  | nil => intro a; rfl
  | cons b t ih =>
    intro a
    simp only [List.zip_cons_cons, List.flatMap_cons, ih b,
      List.singleton_append]

lemma flatMap_segment_of_le_one (nf : ℤ) (h : nf ≤ 1) (a : Rigid3d)
    (rest : List Rigid3d) :
    ((a :: rest).zip rest).flatMap (fun pr => segmentPoses pr.1 pr.2 nf)
      = rest := by
  have h0 : (nf - 1).toNat = 0 := by omega
  have hseg : ∀ pr : Rigid3d × Rigid3d, segmentPoses pr.1 pr.2 nf = [pr.2] := by
    intro pr
    simp [segmentPoses, h0]
  simp only [hseg]
  exact flatMap_snd rest a

/-- C4: whenever `num_frames = int(dt * fps)` is at most 1 (in particular for
zero or negative `dt` or `fps`), no interpolated frames are produced: every
segment emits only its trailing keyframe, the output is exactly the input
keyframes, and no error is raised. -/
theorem num_frames_le_one_keyframes_only (poses : List Rigid3d) (dt fps : ℚ)
    (h : numFrames dt fps ≤ 1) (hne : poses ≠ []) :
    interpolate_poses poses dt fps = some poses := by
  obtain ⟨p, rest, rfl⟩ := List.exists_cons_of_ne_nil hne
  simp only [interpolate_poses, List.tail_cons]
  rw [flatMap_segment_of_le_one _ h]

/-- Witness for C4 at `dt = 0` and at a negative `dt`. -/
theorem num_frames_le_one_keyframes_only_witness :
    interpolate_poses [idPose, idPose] 0 30 = some [idPose, idPose] ∧
    interpolate_poses [idPose, idPose] (-1) 30 = some [idPose, idPose] := by
  constructor
  · exact num_frames_le_one_keyframes_only _ _ _
      (by norm_num [numFrames, pyInt]) (by simp)
  · refine num_frames_le_one_keyframes_only _ _ _ ?_ (by simp)
    norm_num [numFrames, pyInt]
    rw [show ((-30 : ℚ)) = ((-30 : ℤ) : ℚ) by norm_num, Int.ceil_intCast]
    norm_num

/-- C5: on an empty pose list `interpolate_poses` fails (the Python code
raises `IndexError` reading `poses[0]`) for every `dt` and `fps`, producing
no output. -/
theorem interpolate_poses_empty_none (dt fps : ℚ) :
    interpolate_poses [] dt fps = none := rfl

/-! ## Interpolating a pose with itself -/

lemma slerpQ_self (q : Quat) (h : dotQ q q = 1) (t : ℝ) : slerpQ q q t = q := by
  simp only [slerpQ, h]
  norm_num
  cases q with
  | mk w x y z =>
    simp only [Quat.add, Quat.smul, Quat.mk.injEq]
    refine ⟨by ring, by ring, by ring, by ring⟩

/-- C6: interpolating between a pose `A` with a valid (unit) rotation and
itself at any parameter in `(0, 1)` returns `A` unchanged, in both rotation
and translation. -/
theorem interpolate_self (A : Rigid3d) (α : ℝ)
    (hA : normSqQ A.rotation = 1) (h0 : 0 < α) (h1 : α < 1) :
    Rigid3d.interpolate A A α = A := by
  have hrot : slerpQ A.rotation A.rotation α = A.rotation :=
    slerpQ_self _ hA α
  cases A with
  | mk rot tr =>
    simp only [Rigid3d.interpolate] at hrot ⊢
    rw [hrot]
    congr 1
    funext k
    ring

/-- Witness for C6 at the identity pose and `α = 1/2`. -/
theorem interpolate_self_witness :
    Rigid3d.interpolate idPose idPose (1/2) = idPose :=
  interpolate_self idPose (1/2) (by norm_num [normSqQ, dotQ, idPose])
    (by norm_num) (by norm_num)

/-! ## Unit norm of interpolated rotations -/

lemma normSq_combination (a b : ℝ) (q1 q2 : Quat) :
    normSqQ (Quat.add (Quat.smul a q1) (Quat.smul b q2))
      = a^2 * normSqQ q1 + 2*a*b * dotQ q1 q2 + b^2 * normSqQ q2 := by
  cases q1
  cases q2
  simp only [normSqQ, dotQ, Quat.add, Quat.smul]
  ring

lemma normSqQ_nonneg (q : Quat) : 0 ≤ normSqQ q := by
  cases q
  simp only [normSqQ, dotQ]
  ring_nf
  positivity

lemma sin_sq_add_sin_sq (A B : ℝ) :
    Real.sin A ^ 2 + Real.sin B ^ 2
      + 2 * Real.sin A * Real.sin B * Real.cos (A + B)
      = Real.sin (A + B) ^ 2 := by
  rw [Real.sin_add, Real.cos_add]
  have hA := Real.sin_sq_add_cos_sq A
  have hB := Real.sin_sq_add_cos_sq B
  linear_combination (- Real.sin A ^ 2) * hB + (- Real.sin B ^ 2) * hA

lemma slerpQ_normSq (q1 q2 : Quat) (t : ℝ)
    (h1 : normSqQ q1 = 1) (h2 : normSqQ q2 = 1) :
    normSqQ (slerpQ q1 q2 t) = 1 := by
  by_cases hd : 1 ≤ |dotQ q1 q2|
  · have hub : dotQ q1 q2 ≤ 1 := by
      nlinarith [normSqQ_nonneg (Quat.add (Quat.smul 1 q1) (Quat.smul (-1) q2)),
        normSq_combination 1 (-1) q1 q2]
    have hlb : (-1 : ℝ) ≤ dotQ q1 q2 := by
      nlinarith [normSqQ_nonneg (Quat.add (Quat.smul 1 q1) (Quat.smul 1 q2)),
        normSq_combination 1 1 q1 q2]
    unfold slerpQ
    dsimp only
    rw [if_pos hd]
    rcases abs_cases (dotQ q1 q2) with ⟨he, _⟩ | ⟨he, _⟩
    · have hd1 : dotQ q1 q2 = 1 := by rw [he] at hd; linarith
      rw [if_neg (by rw [hd1]; norm_num)]
      rw [normSq_combination, h1, h2, hd1]
      ring
    · have hd1 : dotQ q1 q2 = -1 := by rw [he] at hd; linarith
      rw [if_pos (by rw [hd1]; norm_num)]
      rw [normSq_combination, h1, h2, hd1]
      ring
  · push_neg at hd
    set d := dotQ q1 q2 with hdef
    set θ := Real.arccos |d| with hθdef
    have habs : (0:ℝ) ≤ |d| := abs_nonneg d
    have hθpos : 0 < θ := Real.arccos_pos.mpr hd
    have hθpi : θ < Real.pi := by
      have h2' : θ ≤ Real.pi / 2 := Real.arccos_le_pi_div_two.mpr habs
      linarith [Real.pi_pos]
    have hsin : 0 < Real.sin θ := Real.sin_pos_of_pos_of_lt_pi hθpos hθpi
    have hcos : Real.cos θ = |d| := Real.cos_arccos (by linarith) (le_of_lt hd)
    have key := sin_sq_add_sin_sq ((1 - t) * θ) (t * θ)
    have hAB : (1 - t) * θ + t * θ = θ := by ring
    rw [hAB] at key
    unfold slerpQ
    dsimp only
    rw [if_neg (by rw [← hdef]; exact hd.not_le)]
    have hsne : Real.sin θ ≠ 0 := ne_of_gt hsin
    have key2 : (Real.sin ((1 - t) * θ) / Real.sin θ) ^ 2
        + (Real.sin (t * θ) / Real.sin θ) ^ 2
        + 2 * (Real.sin ((1 - t) * θ) / Real.sin θ)
          * (Real.sin (t * θ) / Real.sin θ) * Real.cos θ = 1 := by
      have e : (Real.sin ((1 - t) * θ) / Real.sin θ) ^ 2
          + (Real.sin (t * θ) / Real.sin θ) ^ 2
          + 2 * (Real.sin ((1 - t) * θ) / Real.sin θ)
            * (Real.sin (t * θ) / Real.sin θ) * Real.cos θ
          = (Real.sin ((1 - t) * θ) ^ 2 + Real.sin (t * θ) ^ 2
              + 2 * Real.sin ((1 - t) * θ) * Real.sin (t * θ) * Real.cos θ)
            * (1 / Real.sin θ) ^ 2 := by ring
      rw [e, key, ← mul_pow, mul_one_div, div_self hsne, one_pow]
    by_cases hneg : d < 0
    · rw [if_pos (by rw [← hdef]; exact hneg)]
      rw [normSq_combination, h1, h2]
      have hdval : dotQ q1 q2 = -Real.cos θ := by
        rw [hcos, abs_of_neg hneg]
        rw [hdef]
        ring
      rw [← hθdef, hdval]
      linear_combination key2
    · rw [if_neg (by rw [← hdef]; exact hneg)]
      rw [normSq_combination, h1, h2]
      have hdval : dotQ q1 q2 = Real.cos θ := by
        rw [hcos, abs_of_nonneg (not_lt.mp hneg)]
      rw [← hθdef, hdval]
      linear_combination key2

lemma quatToMat_orthonormal (q : Quat) (h : normSqQ q = 1) :
    (quatToMat q)ᵀ * quatToMat q = 1 := by
  have hs : q.w^2 + q.x^2 + q.y^2 + q.z^2 = 1 := by
    simp only [normSqQ, dotQ] at h
    linear_combination h
  have hT : (quatToMat q)ᵀ =
      !![1 - 2*(q.y^2 + q.z^2), 2*(q.x*q.y + q.w*q.z), 2*(q.x*q.z - q.w*q.y);
         2*(q.x*q.y - q.w*q.z), 1 - 2*(q.x^2 + q.z^2), 2*(q.y*q.z + q.w*q.x);
         2*(q.x*q.z + q.w*q.y), 2*(q.y*q.z - q.w*q.x), 1 - 2*(q.x^2 + q.y^2)] := by
    rw [Matrix.eta_fin_three ((quatToMat q)ᵀ)]
    simp [quatToMat]
  rw [hT, quatToMat, Matrix.mul_fin_three, Matrix.one_fin_three]
  ext i j
  fin_cases i <;> fin_cases j <;> simp [Matrix.vecHead, Matrix.vecTail]
  · linear_combination (4*(q.y^2 + q.z^2)) * hs
  · linear_combination (-4*q.x*q.y) * hs
  · linear_combination (-4*q.x*q.z) * hs
  · linear_combination (-4*q.x*q.y) * hs
  · linear_combination (4*(q.x^2 + q.z^2)) * hs
  · linear_combination (-4*q.y*q.z) * hs
  · linear_combination (-4*q.x*q.z) * hs
  · linear_combination (-4*q.y*q.z) * hs
  · linear_combination (4*(q.x^2 + q.y^2)) * hs

lemma quatToMat_det (q : Quat) (h : normSqQ q = 1) :
    (quatToMat q).det = 1 := by
  have hs : q.w^2 + q.x^2 + q.y^2 + q.z^2 = 1 := by
    simp only [normSqQ, dotQ] at h
    linear_combination h
  rw [Matrix.det_fin_three]
  simp [quatToMat]
  linear_combination (4*(q.x^2 + q.y^2 + q.z^2)) * hs

lemma quatToMat_validRot (q : Quat) (h : normSqQ q = 1) :
    validRot (quatToMat q) :=
  ⟨quatToMat_orthonormal q h, quatToMat_det q h⟩

/-- C7: whenever every input pose carries a valid rotation (a unit
quaternion, i.e. a genuine rotation), every pose produced by
`interpolate_poses` — keyframes and interpolated frames alike, at any
angular separation — again carries a unit rotation quaternion, and the
rotation matrix realising it is orthonormal with determinant one. -/
theorem interpolated_rotations_valid (poses : List Rigid3d) (dt fps : ℚ)
    (out : List Rigid3d) (hout : interpolate_poses poses dt fps = some out)
    (hunit : ∀ p ∈ poses, normSqQ p.rotation = 1) :
    ∀ p ∈ out, normSqQ p.rotation = 1 ∧ validRot (quatToMat p.rotation) := by
  have main : ∀ p ∈ out, normSqQ p.rotation = 1 := by
    cases poses with
    | nil => exact absurd hout (by simp [interpolate_poses])
    | cons p0 rest =>
      simp only [interpolate_poses, Option.some_inj] at hout
      subst hout
      intro p hp
      rcases List.mem_cons.mp hp with rfl | hp
      · exact hunit p (List.mem_cons_self _ _)
      · rcases List.mem_flatMap.mp hp with ⟨pr, hpr, hpseg⟩
        have hmem := List.of_mem_zip hpr
        have h1 : normSqQ pr.1.rotation = 1 := hunit _ hmem.1
        have h2 : normSqQ pr.2.rotation = 1 :=
          hunit _ (List.mem_of_mem_tail hmem.2)
        rcases List.mem_append.mp hpseg with hmap | hlast
        · rcases List.mem_map.mp hmap with ⟨j, _, rfl⟩
          exact slerpQ_normSq _ _ _ h1 h2
        · rw [List.mem_singleton.mp hlast]
          exact h2
  intro p hp
  exact ⟨main p hp, quatToMat_validRot _ (main p hp)⟩

/-- Witness for C7 at a singleton pose list. -/
theorem interpolated_rotations_valid_witness :
    normSqQ idPose.rotation = 1 ∧ validRot (quatToMat idPose.rotation) := by
  have h := interpolated_rotations_valid [idPose] 1 1 [idPose] rfl
    (by
      intro p hp
      rw [List.mem_singleton.mp hp]
      norm_num [idPose, normSqQ, dotQ])
  exact h idPose (List.mem_singleton.mpr rfl)

/-! ## Field of view and focal length conversions -/

/-- C8: for a field of view in `(0, π)` and a positive pixel count,
`fov_to_focal` succeeds and `focal_to_fov` applied to its result returns the
original field of view: the two functions are exact inverses on positive
inputs. -/
theorem fov_focal_roundtrip (x : ℝ) (p : ℕ) (hx1 : 0 < x)
    (hx2 : x < Real.pi) (hp : 0 < p) :
    ∃ f, fov_to_focal x p = some f ∧ focal_to_fov f p = some x := by
  have ht : 0 < Real.tan (x / 2) :=
    Real.tan_pos_of_pos_of_lt_pi_div_two (by linarith) (by linarith)
  have hpR : (0:ℝ) < (p : ℝ) := by exact_mod_cast hp
  have hden : 2 * Real.tan (x / 2) ≠ 0 := by positivity
  refine ⟨(p : ℝ) / (2 * Real.tan (x / 2)), ?_, ?_⟩
  · simp [fov_to_focal, fdiv, hden]
  · have hf : (0:ℝ) < (p : ℝ) / (2 * Real.tan (x / 2)) := by positivity
    have hden2 : 2 * ((p : ℝ) / (2 * Real.tan (x / 2))) ≠ 0 := by positivity
    simp only [focal_to_fov, fdiv, if_neg hden2, Option.map_some']
    have harg : (p : ℝ) / (2 * ((p : ℝ) / (2 * Real.tan (x / 2))))
        = Real.tan (x / 2) := by
      field_simp
      ring
    rw [harg, Real.arctan_tan (by linarith [Real.pi_pos]) (by linarith)]
    rw [show 2 * (x / 2) = x by ring]

/-- Witness for C8 at a right-angle field of view and 2 pixels. -/
theorem fov_focal_roundtrip_witness :
    ∃ f, fov_to_focal (Real.pi / 2) 2 = some f ∧
      focal_to_fov f 2 = some (Real.pi / 2) :=
  fov_focal_roundtrip (Real.pi / 2) 2 (by positivity)
    (by linarith [Real.pi_pos]) (by norm_num)

/-- C10: at a zero field of view `fov_to_focal` divides by zero (the Python
code raises `ZeroDivisionError`, modelled as `none`), and likewise
`focal_to_fov` at a zero focal length, for every pixel count. -/
theorem fov_to_focal_zero_fails (p : ℕ) :
    fov_to_focal 0 p = none ∧ focal_to_fov 0 p = none := by
  constructor
  · simp [fov_to_focal, fdiv, Real.tan_zero]
  · simp [focal_to_fov, fdiv]

/-! ## Value of each interpolated pose -/

theorem flatMap_getElem?_const {α β : Type} (L : ℕ) (f : α → List β) :
    ∀ (l : List α) (i r : ℕ), (∀ x ∈ l, (f x).length = L) →
      ∀ (hi : i < l.length), r < L →
      (l.flatMap f)[i * L + r]? = (f (l.get ⟨i, hi⟩))[r]?
  | [], i, r, hf, hi, hr => by simp at hi
  | x :: xs, 0, r, hf, hi, hr => by
    simp only [List.flatMap_cons, Nat.zero_mul, Nat.zero_add]
    rw [List.getElem?_append_left
      (by rw [hf x (List.mem_cons_self x xs)]; exact hr)]
    rfl
  | x :: xs, i+1, r, hf, hi, hr => by
    simp only [List.flatMap_cons]
    have hx : (f x).length = L := hf x (List.mem_cons_self x xs)
    have e1 : (i+1) * L + r = (f x).length + (i * L + r) := by rw [hx]; ring
    rw [e1, List.getElem?_append_right (Nat.le_add_right _ _),
      Nat.add_sub_cancel_left]
    exact flatMap_getElem?_const L f xs i r
      (fun y hy => hf y (List.mem_cons_of_mem x hy))
      (by simpa using Nat.lt_of_succ_lt_succ hi) hr

lemma segmentPoses_getElem? (pre nxt : Rigid3d) (nf : ℤ) (k : ℕ)
    (hk : k < (nf - 1).toNat) :
    (segmentPoses pre nxt nf)[k]? =
      some (Rigid3d.interpolate pre nxt (((1 + k : ℕ) : ℝ) / (nf : ℝ))) := by
  rw [segmentPoses, List.getElem?_append_left (by simpa using hk)]
  rw [List.getElem?_map, List.getElem?_range' 1 1 hk]
  simp only [Option.map_some', one_mul]

/-- C3: for every consecutive pair `(poses[i], poses[i+1])` and every step
`j` with `1 ≤ j ≤ num_frames - 1`, the `j`-th interpolated pose of that
segment (sitting at output position `i * num_frames + j`) has rotation equal
to shortest-arc spherical linear interpolation of the pair's rotations at
parameter `alpha = j / num_frames` and translation equal to linear
interpolation of the pair's translations at the same `alpha`. -/
theorem interpolated_pose_formula (poses : List Rigid3d) (dt fps : ℚ)
    (i j : ℕ) (hi : i + 1 < poses.length) (hj1 : 1 ≤ j)
    (hj2 : (j : ℤ) < numFrames dt fps) :
    ∃ out, interpolate_poses poses dt fps = some out ∧
      ∃ hidx : i * (numFrames dt fps).toNat + j < out.length,
        (out.get ⟨i * (numFrames dt fps).toNat + j, hidx⟩).rotation
            = slerpQ (poses.get ⟨i, by omega⟩).rotation
                (poses.get ⟨i + 1, hi⟩).rotation
                ((j : ℝ) / (numFrames dt fps : ℝ))
          ∧ (out.get ⟨i * (numFrames dt fps).toNat + j, hidx⟩).translation
            = fun k => (1 - (j : ℝ) / (numFrames dt fps : ℝ))
                  * (poses.get ⟨i, by omega⟩).translation k
                + ((j : ℝ) / (numFrames dt fps : ℝ))
                  * (poses.get ⟨i + 1, hi⟩).translation k := by
  cases poses with
  | nil => simp at hi
  | cons p0 rest =>
    have hilen : i + 1 < rest.length + 1 := by simpa using hi
    have h2nf : 2 ≤ numFrames dt fps := by omega
    have hout : interpolate_poses (p0 :: rest) dt fps
        = some (p0 :: ((p0 :: rest).zip rest).flatMap
            (fun pr => segmentPoses pr.1 pr.2 (numFrames dt fps))) := by
      simp only [interpolate_poses, List.tail_cons]
    refine ⟨_, hout, ?_⟩
    set nf := numFrames dt fps with hnfdef
    set L := nf.toNat with hLdef
    set body := ((p0 :: rest).zip rest).flatMap
      (fun pr => segmentPoses pr.1 pr.2 nf) with hbody
    have hzlen : ((p0 :: rest).zip rest).length = rest.length := by
      rw [List.length_zip, List.length_cons]
      omega
    have hi' : i < ((p0 :: rest).zip rest).length := by omega
    have hseglen : ∀ pr ∈ (p0 :: rest).zip rest,
        (segmentPoses pr.1 pr.2 nf).length = L := by
      intro pr _
      rw [segmentPoses_length]
      omega
    have hr : j - 1 < L := by omega
    have hflat := flatMap_getElem?_const L
      (fun pr => segmentPoses pr.1 pr.2 nf)
      ((p0 :: rest).zip rest) i (j - 1) hseglen hi' hr
    have hpair : ((p0 :: rest).zip rest).get ⟨i, hi'⟩
        = ((p0 :: rest).get ⟨i, by omega⟩, (p0 :: rest).get ⟨i + 1, hi⟩) := by
      rw [List.get_eq_getElem, List.getElem_zip]
      simp [List.get_eq_getElem]
    rw [hpair] at hflat
    have hsegval := segmentPoses_getElem?
      ((p0 :: rest).get ⟨i, by omega⟩) ((p0 :: rest).get ⟨i + 1, hi⟩)
      nf (j - 1) (by omega)
    have hjcast : ((1 + (j - 1) : ℕ) : ℝ) = (j : ℝ) := by
      have : (1 + (j - 1) : ℕ) = j := by omega
      rw [this]
    rw [hjcast] at hsegval
    have hcons : (p0 :: body)[i * L + j]? = body[i * L + (j - 1)]? := by
      have e : i * L + j = (i * L + (j - 1)) + 1 := by
        have hj' : j = (j - 1) + 1 := by omega
        calc i * L + j = i * L + ((j - 1) + 1) := by rw [← hj']
          _ = (i * L + (j - 1)) + 1 := by ring
      rw [e, List.getElem?_cons_succ]
    have hval : (p0 :: body)[i * L + j]? =
        some (Rigid3d.interpolate ((p0 :: rest).get ⟨i, by omega⟩)
          ((p0 :: rest).get ⟨i + 1, hi⟩) ((j : ℝ) / (nf : ℝ))) := by
      rw [hcons, hflat, hsegval]
    obtain ⟨hlt, heq⟩ := List.getElem?_eq_some_iff.mp hval
    refine ⟨hlt, ?_, ?_⟩
    · rw [List.get_eq_getElem, heq]
      rfl
    · rw [List.get_eq_getElem, heq]
      rfl

/-- Witness for C3: two keyframes, `num_frames = 2`, step `j = 1`. -/
theorem interpolated_pose_formula_witness :
    ∃ out, interpolate_poses [idPose, idPose] 1 2 = some out ∧
      ∃ hidx : 0 * (numFrames 1 2).toNat + 1 < out.length,
        (out.get ⟨0 * (numFrames 1 2).toNat + 1, hidx⟩).rotation
            = slerpQ (([idPose, idPose] : List Rigid3d).get
                  ⟨0, by norm_num⟩).rotation
                (([idPose, idPose] : List Rigid3d).get
                  ⟨0 + 1, by norm_num⟩).rotation
                (((1 : ℕ) : ℝ) / (numFrames 1 2 : ℝ))
          ∧ (out.get ⟨0 * (numFrames 1 2).toNat + 1, hidx⟩).translation
            = fun k => (1 - ((1 : ℕ) : ℝ) / (numFrames 1 2 : ℝ))
                  * (([idPose, idPose] : List Rigid3d).get
                      ⟨0, by norm_num⟩).translation k
                + (((1 : ℕ) : ℝ) / (numFrames 1 2 : ℝ))
                  * (([idPose, idPose] : List Rigid3d).get
                      ⟨0 + 1, by norm_num⟩).translation k :=
  interpolated_pose_formula [idPose, idPose] 1 2 0 1 (by norm_num)
    (by norm_num) (by norm_num [numFrames, pyInt])

/-! ## Loading camera poses -/

lemma buildTwc_mul_inv (R : Matrix (Fin 3) (Fin 3) ℝ) (t : Fin 3 → ℝ)
    (hR : R * Rᵀ = 1) :
    buildTwc R t * buildTwc Rᵀ (fun i => -(Rᵀ.mulVec t) i) = 1 := by
  have key : ∀ a b : Fin 3,
      R a 0 * R b 0 + R a 1 * R b 1 + R a 2 * R b 2
        = if a = b then 1 else 0 := by
    intro a b
    have h := congrFun (congrFun hR a) b
    simpa [Matrix.mul_apply, Fin.sum_univ_three, Matrix.transpose_apply,
      Matrix.one_apply] using h
  have e00 : R 0 0 * R 0 0 + R 0 1 * R 0 1 + R 0 2 * R 0 2 = 1 := by
    simpa using key 0 0
  have e01 : R 0 0 * R 1 0 + R 0 1 * R 1 1 + R 0 2 * R 1 2 = 0 := by
    simpa using key 0 1
  have e02 : R 0 0 * R 2 0 + R 0 1 * R 2 1 + R 0 2 * R 2 2 = 0 := by
    simpa using key 0 2
  have e10 : R 1 0 * R 0 0 + R 1 1 * R 0 1 + R 1 2 * R 0 2 = 0 := by
    simpa using key 1 0
  have e11 : R 1 0 * R 1 0 + R 1 1 * R 1 1 + R 1 2 * R 1 2 = 1 := by
    simpa using key 1 1
  have e12 : R 1 0 * R 2 0 + R 1 1 * R 2 1 + R 1 2 * R 2 2 = 0 := by
    simpa using key 1 2
  have e20 : R 2 0 * R 0 0 + R 2 1 * R 0 1 + R 2 2 * R 0 2 = 0 := by
    simpa using key 2 0
  have e21 : R 2 0 * R 1 0 + R 2 1 * R 1 1 + R 2 2 * R 1 2 = 0 := by
    simpa using key 2 1
  have e22 : R 2 0 * R 2 0 + R 2 1 * R 2 1 + R 2 2 * R 2 2 = 1 := by
    simpa using key 2 2
  ext i j
  fin_cases i <;> fin_cases j <;>
    simp [buildTwc, Matrix.mul_apply, Fin.sum_univ_four, Matrix.one_apply,
      Matrix.vecHead, Matrix.vecTail, Matrix.mulVec, Matrix.dotProduct,
      Fin.sum_univ_three, Matrix.transpose_apply]
  · exact e00
  · exact e01
  · exact e02
  · linear_combination (-(t 0)) * e00 + (-(t 1)) * e01 + (-(t 2)) * e02
  · exact e10
  · exact e11
  · exact e12
  · linear_combination (-(t 0)) * e10 + (-(t 1)) * e11 + (-(t 2)) * e12
  · exact e20
  · exact e21
  · exact e22
  · linear_combination (-(t 0)) * e20 + (-(t 1)) * e21 + (-(t 2)) * e22

lemma buildTwc_inv (R : Matrix (Fin 3) (Fin 3) ℝ) (t : Fin 3 → ℝ)
    (hR : Rᵀ * R = 1) :
    (buildTwc R t)⁻¹ = buildTwc Rᵀ (fun i => -(Rᵀ.mulVec t) i) :=
  Matrix.inv_eq_right_inv
    (buildTwc_mul_inv R t (Matrix.mul_eq_one_comm.mp hR))

lemma mem_insertAssoc_self {α : Type} (d : List (String × α)) (k : String)
    (v : α) : (k, v) ∈ insertAssoc d k v := by
  induction d with
  | nil => simp [insertAssoc]
  | cons p rest ih =>
    obtain ⟨a, b⟩ := p
    by_cases h : a = k
    · simp [insertAssoc, h]
    · simp only [insertAssoc, if_neg h, List.mem_cons]
      exact Or.inr ih

lemma mem_insertAssoc_of_ne {α : Type} {d : List (String × α)} {k : String}
    {v : α} (k' : String) (v' : α) (h : k ≠ k') (hm : (k, v) ∈ d) :
    (k, v) ∈ insertAssoc d k' v' := by
  induction d with
  | nil => simp at hm
  | cons p rest ih =>
    obtain ⟨a, b⟩ := p
    rcases List.mem_cons.mp hm with heq | hm'
    · have hka : k = a := (Prod.mk.injEq _ _ _ _ ▸ heq).1
      have hak : a ≠ k' := by rw [← hka]; exact h
      simp only [insertAssoc, if_neg hak, List.mem_cons]
      exact Or.inl heq
    · by_cases hak : a = k'
      · simp only [insertAssoc, if_pos hak, List.mem_cons]
        exact Or.inr hm'
      · simp only [insertAssoc, if_neg hak, List.mem_cons]
        exact Or.inr (ih hm')

lemma mem_foldl_insert_preserve
    (g : CameraItem → Matrix (Fin 4) (Fin 4) ℝ) :
    ∀ (l : List CameraItem) (acc : List (String × Matrix (Fin 4) (Fin 4) ℝ))
      (k : String) (v : Matrix (Fin 4) (Fin 4) ℝ),
      (k, v) ∈ acc → (∀ it ∈ l, it.img_name ≠ k) →
      (k, v) ∈ l.foldl (fun a it => insertAssoc a it.img_name (g it)) acc
  | [], acc, k, v, hm, _ => hm
  | x :: rest, acc, k, v, hm, hne => by
    simp only [List.foldl_cons]
    exact mem_foldl_insert_preserve g rest _ k v
      (mem_insertAssoc_of_ne _ _
        (fun he => hne x (List.mem_cons_self x rest) he.symm) hm)
      (fun it hit => hne it (List.mem_cons_of_mem x hit))

lemma mem_foldl_insert (g : CameraItem → Matrix (Fin 4) (Fin 4) ℝ) :
    ∀ (l : List CameraItem) (acc : List (String × Matrix (Fin 4) (Fin 4) ℝ))
      (it : CameraItem), it ∈ l → (l.map CameraItem.img_name).Nodup →
      (it.img_name, g it)
        ∈ l.foldl (fun a x => insertAssoc a x.img_name (g x)) acc
  | [], acc, it, hit, _ => by simp at hit
  | x :: rest, acc, it, hit, hnd => by
    simp only [List.foldl_cons]
    have hnd' := hnd
    rw [List.map_cons, List.nodup_cons] at hnd'
    rcases List.mem_cons.mp hit with rfl | hit'
    · exact mem_foldl_insert_preserve g rest _ _ _
        (mem_insertAssoc_self _ _ _)
        (fun y hy hEq =>
          hnd'.1 (hEq ▸ List.mem_map_of_mem CameraItem.img_name hy))
    · exact mem_foldl_insert g rest _ it hit' hnd'.2

/-- C9: under the assumed uniqueness of names and validity of the stored
rotations, `load_camera_poses` returns a mapping whose keys are in ascending
lexicographic order and which associates to each input record the inverse of
its 4x4 camera-to-world matrix; that inverse is the world-to-camera
transform with rotation block `Rᵀ` and translation `-Rᵀt`. -/
theorem load_camera_poses_spec (data : List CameraItem)
    (hnames : (data.map CameraItem.img_name).Nodup)
    (hrot : ∀ it ∈ data, validRot it.rotation) :
    ((load_camera_poses data).map Prod.fst).Pairwise (· ≤ ·) ∧
    ∀ it ∈ data,
      (it.img_name, (buildTwc it.rotation it.position)⁻¹)
          ∈ load_camera_poses data
        ∧ (buildTwc it.rotation it.position)⁻¹
          = buildTwc it.rotationᵀ
              (fun i => -(it.rotationᵀ.mulVec it.position) i) := by
  constructor
  · unfold load_camera_poses
    rw [List.pairwise_map]
    have hs := @List.sorted_mergeSort (String × Matrix (Fin 4) (Fin 4) ℝ)
      (fun a b => decide (a.1 ≤ b.1))
      (by
        intro a b c hab hbc
        simp only [decide_eq_true_eq] at hab hbc ⊢
        exact le_trans hab hbc)
      (by
        intro a b
        simpa [Bool.or_eq_true, decide_eq_true_eq] using le_total a.1 b.1)
      (data.foldl
        (fun acc it =>
          insertAssoc acc it.img_name (buildTwc it.rotation it.position)⁻¹)
        [])
    exact hs.imp (fun h => by simpa using h)
  · intro it hit
    refine ⟨?_, buildTwc_inv _ _ (hrot it hit).1⟩
    unfold load_camera_poses
    rw [List.mem_mergeSort]
    exact mem_foldl_insert
      (fun x => (buildTwc x.rotation x.position)⁻¹) data [] it hit hnames

/-- Witness for C9 at a single record with identity rotation. -/
theorem load_camera_poses_spec_witness :
    ((load_camera_poses [idCam]).map Prod.fst).Pairwise (· ≤ ·) ∧
    ∀ it ∈ [idCam],
      (it.img_name, (buildTwc it.rotation it.position)⁻¹)
          ∈ load_camera_poses [idCam]
        ∧ (buildTwc it.rotation it.position)⁻¹
          = buildTwc it.rotationᵀ
              (fun i => -(it.rotationᵀ.mulVec it.position) i) :=
  load_camera_poses_spec [idCam] (by simp)
    (by
      intro it hit
      rw [List.mem_singleton.mp hit]
      constructor
      · rw [show (idCam.rotation)ᵀ = idCam.rotation by
          simp [idCam, Matrix.transpose_one]]
        simp [idCam]
      · simp [idCam])
